import Mathlib

/-!
Shallow embedding of the recursive multisort/merge kernel of
`src/Laboratori/Lab4/codesLab4/multisort-tree.c`, together with the
command-line configuration layer of its `main`.

The element type `T` is `int`; buffers are modelled as `List Int`, a pointer
`&buf[k]` with extent `m` as the slice `(buf.drop k).take m`, and an in-place
routine as a function returning the new buffer contents.  The OpenMP task
pragmas only order writes to pairwise disjoint index ranges, so the
deterministic sequential composition below is the unique result of any
schedule.  The external base-case routines `basicsort` and `basicmerge` are
declared but not defined in the repository; they are modelled from the spec's
contracts and carry `Modelled from the spec:` doc comments.
-/

namespace MultisortTree

/-- Modelled from the spec: the merged sorted sequence of two pre-sorted runs,
by standard two-pointer merge logic, ties taking the element of `left` first
(the stable merge of the spec).  Generic in a key function so that stability
is observable on tagged elements; the kernel instantiates `key = id`. -/
def mergePair (key : α → Int) : List α → List α → List α
  | [], ys => ys
  | x :: xs, [] => x :: xs
  | x :: xs, y :: ys =>
    if key x ≤ key y then x :: mergePair key xs (y :: ys)
    else y :: mergePair key (x :: xs) ys
termination_by l r => l.length + r.length

/-- Overwrite positions `[start, start + len)` of buffer `r` with the
corresponding positions of the sequence `s`, leaving all other positions
unchanged: the effect of the family of writes `r[i] = s[i]` for `i` in the
destination sub-range. -/
def overwrite (r : List Int) (start len : Nat) (s : List Int) : List Int :=
  (List.range r.length).map fun i =>
    if start ≤ i ∧ i < start + len then s.getD i 0 else r.getD i 0

/-- Modelled from the spec: the external routine
`void basicmerge(long n, T left[n], T right[n], T result[n*2], long start, long length)`
is only declared in the source.  Its contract: a direct sequential linear merge
producing `result[start .. start + length)` from the combined index space of the
merged `left ++ right`, stable (ties take the left element).  The extent
argument `n` is the declared array bound and does not affect the result. -/
def basicmerge (n : Nat) (left right result : List Int) (start length : Nat) : List Int :=
  overwrite result start length (mergePair id left right)

/-- The `merge` routine of multisort-tree.c: recursive decomposition of the destination
range; base case `length < MIN_MERGE_SIZE*2` calls `basicmerge`.  The added
`0 < length` conjunct on the recursive branch is redundant whenever
`MIN_MERGE_SIZE ≥ 1` (as in every valid configuration, `MIN_MERGE_SIZE` a
positive power of two) and makes the recursion well-founded. -/
def merge (MIN_MERGE_SIZE : Nat) (n : Nat) (left right result : List Int)
    (start length : Nat) : List Int :=
  if 2 * MIN_MERGE_SIZE ≤ length ∧ 0 < length then
    merge MIN_MERGE_SIZE n left right
      (merge MIN_MERGE_SIZE n left right result start (length / 2))
      (start + length / 2) (length / 2)
  else
    basicmerge n left right result start length
termination_by length
decreasing_by all_goals omega

/-- Modelled from the spec: the external routine `void basicsort(long n, T data[n])`
is only declared in the source.  Its contract: a total, correct, stable
comparison sort of `data[0..n)` in place; realised as insertion sort (every
call site passes the full extent of the slice). -/
def basicsort (n : Nat) (data : List Int) : List Int :=
  data.insertionSort (· ≤ ·)

/-- The `multisort` routine of multisort-tree.c.  For `n ≥ MIN_SORT_SIZE*4`: sort the four
quarters of `data` (each with the matching quarter of `tmp` as scratch), merge
data quarters 0,1 into `tmp[0, n/2)` and quarters 2,3 into `tmp[n/2, n)`, then
merge the two halves of `tmp` into `data[0, n)`; otherwise `basicsort` on
`data`, `tmp` untouched.  Returns the final contents of `(data, tmp)`.  The
added `0 < n` conjunct is redundant whenever `MIN_SORT_SIZE ≥ 1` and makes the
recursion well-founded. -/
def multisort (MIN_SORT_SIZE MIN_MERGE_SIZE : Nat) (n : Nat) (data tmp : List Int) :
    List Int × List Int :=
  if 4 * MIN_SORT_SIZE ≤ n ∧ 0 < n then
    let p0 := multisort MIN_SORT_SIZE MIN_MERGE_SIZE (n / 4)
      (data.take (n / 4)) (tmp.take (n / 4))
    let p1 := multisort MIN_SORT_SIZE MIN_MERGE_SIZE (n / 4)
      ((data.drop (n / 4)).take (n / 4)) ((tmp.drop (n / 4)).take (n / 4))
    let p2 := multisort MIN_SORT_SIZE MIN_MERGE_SIZE (n / 4)
      ((data.drop (n / 2)).take (n / 4)) ((tmp.drop (n / 2)).take (n / 4))
    let p3 := multisort MIN_SORT_SIZE MIN_MERGE_SIZE (n / 4)
      ((data.drop (3 * n / 4)).take (n / 4)) ((tmp.drop (3 * n / 4)).take (n / 4))
    let t0 := merge MIN_MERGE_SIZE (n / 4) p0.1 p1.1 (p0.2 ++ p1.2) 0 (n / 2)
    let t1 := merge MIN_MERGE_SIZE (n / 4) p2.1 p3.1 (p2.2 ++ p3.2) 0 (n / 2)
    let d := merge MIN_MERGE_SIZE (n / 2) t0 t1 (p0.1 ++ p1.1 ++ p2.1 ++ p3.1) 0 n
    (d, t0 ++ t1)
  else
    (basicsort n data, tmp)
termination_by n
decreasing_by all_goals omega

/-- The four mutable globals of multisort-tree.c (`long N`, `long MIN_SORT_SIZE`,
`long MIN_MERGE_SIZE`, `int CUTOFF`), modelled as a record of integers. -/
structure Globals where
  N : Int
  MIN_SORT_SIZE : Int
  MIN_MERGE_SIZE : Int
  CUTOFF : Int
deriving DecidableEq, Repr

/-- The defaults set at the top of `main`. -/
def defaultGlobals : Globals :=
  { N := 32768 * 1024, MIN_SORT_SIZE := 1024, MIN_MERGE_SIZE := 1024, CUTOFF := 16 }

/-- Accumulate the numeric value of a leading run of decimal digits, stopping
at the first non-digit, like C's `atol` does after sign handling. -/
def natOfDigitsAux (acc : Nat) : List Char → Nat
  | [] => acc
  | c :: cs => if c.isDigit then natOfDigitsAux (10 * acc + (c.toNat - 48)) cs else acc

/-- C `atol` on the argument strings: optional leading minus sign, then the
leading run of digits (0 when there is none).  Leading whitespace skipping is
omitted; no claim passes arguments with leading whitespace. -/
def atol (s : String) : Int :=
  match s.data with
  | '-' :: cs => - (natOfDigitsAux 0 cs : Nat)
  | cs => (natOfDigitsAux 0 cs : Nat)

/-- The argument-processing loop of `main` (OpenMP build, so `-c` is
recognized), one option with its value per step.  `none` models the
usage-message-and-`EXIT_FAILURE` path taken for an unrecognized option; a
recognized option missing its value reads `argv[argc]` (null) in C, also
modelled as `none`.  No power-of-two or overlap validation is performed. -/
def parseArgs : List String → Globals → Option Globals
  | [], g => some g
  | a :: rest, g =>
    if a = "-n" then
      match rest with
      | v :: rest2 => parseArgs rest2 { g with N := atol v * 1024 }
      | [] => none
    else if a = "-s" then
      match rest with
      | v :: rest2 => parseArgs rest2 { g with MIN_SORT_SIZE := atol v }
      | [] => none
    else if a = "-m" then
      match rest with
      | v :: rest2 => parseArgs rest2 { g with MIN_MERGE_SIZE := atol v }
      | [] => none
    else if a = "-c" then
      match rest with
      | v :: rest2 => parseArgs rest2 { g with CUTOFF := atol v }
      | [] => none
    else
      none

/-- The engine invocation `multisort(N, data, tmp)` performed by `main` after
parsing: only `N`, `MIN_SORT_SIZE` and `MIN_MERGE_SIZE` reach the engine;
`CUTOFF` occurs nowhere in `multisort`, `merge`, `basicsort` or `basicmerge`
in the multisort-tree.c variant. -/
def multisortRun (g : Globals) (data tmp : List Int) : List Int × List Int :=
  multisort g.MIN_SORT_SIZE.toNat g.MIN_MERGE_SIZE.toNat g.N.toNat data tmp

/-- Executable power-of-two test on naturals, used to state configuration
validity. -/
def isPow2Nat : Nat → Bool
  | 0 => false
  | 1 => true
  | n + 2 => decide ((n + 2) % 2 = 0) && isPow2Nat ((n + 2) / 2)
decreasing_by omega

/-! ### Properties of the merged sequence -/

theorem length_mergePair (key : α → Int) :
    ∀ l r : List α, (mergePair key l r).length = l.length + r.length := by
  intro l
  induction l with
  | nil => intro r; simp [mergePair]
  | cons x xs ih =>
    intro r
    induction r with
    | nil => simp [mergePair]
    | cons y ys ihr =>
      rw [mergePair]
      split
      · simpa [ih (y :: ys)] using by omega
      · simp only [List.length_cons] at ihr ⊢
        simpa [ihr] using by omega

theorem mergePair_perm (key : α → Int) :
    ∀ l r : List α, List.Perm (mergePair key l r) (l ++ r) := by
  intro l
  induction l with
  | nil => intro r; simp [mergePair]
  | cons x xs ih =>
    intro r
    induction r with
    | nil => simp [mergePair]
    | cons y ys ihr =>
      rw [mergePair]
      split
      · exact ((ih (y :: ys)).cons x)
      · exact ((ihr.cons y).trans List.perm_middle.symm)

theorem sorted_mergePair (key : α → Int) :
    ∀ l r : List α, l.Pairwise (fun a b => key a ≤ key b) →
      r.Pairwise (fun a b => key a ≤ key b) →
      (mergePair key l r).Pairwise (fun a b => key a ≤ key b) := by
  intro l
  induction l with
  | nil => intro r _ hr; simpa [mergePair] using hr
  | cons x xs ih =>
    intro r
    induction r with
    | nil => intro hl _; simpa [mergePair] using hl
    | cons y ys ihr =>
      intro hl hr
      have hlh := List.pairwise_cons.mp hl
      have hrh := List.pairwise_cons.mp hr
      rw [mergePair]
      split
      · rename_i hxy
        refine List.pairwise_cons.mpr ⟨?_, ih (y :: ys) hlh.2 hr⟩
        intro b hb
        have hb' := (mergePair_perm key xs (y :: ys)).mem_iff.mp hb
        rcases List.mem_append.mp hb' with h | h
        · exact hlh.1 b h
        · rcases List.mem_cons.mp h with rfl | h
          · exact hxy
          · exact le_trans hxy (hrh.1 b h)
      · rename_i hxy
        push_neg at hxy
        refine List.pairwise_cons.mpr ⟨?_, ihr hl hrh.2⟩
        intro b hb
        have hb' := (mergePair_perm key (x :: xs) ys).mem_iff.mp hb
        rcases List.mem_append.mp hb' with h | h
        · rcases List.mem_cons.mp h with rfl | h
          · exact le_of_lt hxy
          · exact le_trans (le_of_lt hxy) (hlh.1 b h)
        · exact hrh.1 b h

theorem map_fst_map_pair (c : Nat) (l : List Int) :
    (l.map fun x => (x, c)).map Prod.fst = l := by
  induction l with
  | nil => rfl
  | cons x xs ih => simp only [List.map_cons, ih]

theorem mergePair_map_fst (a b : Nat) :
    ∀ l r : List Int,
      (mergePair Prod.fst (l.map fun x => (x, a)) (r.map fun x => (x, b))).map Prod.fst =
        mergePair id l r := by
  intro l
  induction l with
  | nil =>
    intro r
    simp only [List.map_nil]
    rw [mergePair, mergePair]
    exact map_fst_map_pair b r
  | cons x xs ih =>
    intro r
    induction r with
    | nil =>
      simp only [List.map_nil, List.map_cons]
      rw [mergePair, mergePair]
      simpa using map_fst_map_pair a xs
    | cons y ys ihr =>
      simp only [List.map_cons]
      rw [mergePair, mergePair]
      by_cases h : x ≤ y
      · rw [if_pos (show ((x, a) : Int × Nat).1 ≤ ((y, b) : Int × Nat).1 from h),
          if_pos (show id x ≤ id y from h), List.map_cons]
        have := ih (y :: ys)
        simp only [List.map_cons] at this
        rw [this]
      · rw [if_neg (show ¬ ((x, a) : Int × Nat).1 ≤ ((y, b) : Int × Nat).1 from h),
          if_neg (show ¬ id x ≤ id y from h), List.map_cons]
        simp only [List.map_cons] at ihr
        rw [ihr]

theorem mergePair_filter_stable (key : α → Int) (v : Int) :
    ∀ l r : List α, l.Pairwise (fun a b => key a ≤ key b) →
      (mergePair key l r).filter (fun x => decide (key x = v)) =
        l.filter (fun x => decide (key x = v)) ++ r.filter (fun x => decide (key x = v)) := by
  intro l
  induction l with
  | nil => intro r _; simp [mergePair]
  | cons x xs ih =>
    intro r
    induction r with
    | nil => intro _; simp [mergePair]
    | cons y ys ihr =>
      intro hl
      have hlh := List.pairwise_cons.mp hl
      rw [mergePair]
      split
      · rename_i hxy
        rw [List.filter_cons, List.filter_cons, ih (y :: ys) hlh.2]
        by_cases hx : key x = v
        · simp [hx]
        · simp [hx]
      · rename_i hxy
        push_neg at hxy
        by_cases hy : key y = v
        · have hnil : (x :: xs).filter (fun a => decide (key a = v)) = [] := by
            rw [List.filter_eq_nil_iff]
            intro c hc
            have hlt : key y < key c := by
              rcases List.mem_cons.mp hc with rfl | h
              · exact hxy
              · exact lt_of_lt_of_le hxy (hlh.1 c h)
            simp only [decide_eq_true_eq]
            intro hcv
            omega
          rw [List.filter_cons, ihr hl, hnil]
          simp [hy, List.filter_cons]
        · rw [List.filter_cons, ihr hl]
          simp [hy, List.filter_cons]

/-! ### The effect of a range write -/

theorem length_overwrite (r s : List Int) (a len : Nat) :
    (overwrite r a len s).length = r.length := by
  simp [overwrite]

theorem getElem?_overwrite (r s : List Int) (a len i : Nat) :
    (overwrite r a len s)[i]? =
      if i < r.length then
        some (if a ≤ i ∧ i < a + len then s.getD i 0 else r.getD i 0)
      else none := by
  by_cases h : i < r.length
  · rw [if_pos h]
    simp [overwrite, List.getElem?_map, List.getElem?_range h]
  · rw [if_neg h]
    apply List.getElem?_eq_none
    rw [length_overwrite]
    omega

theorem getD_overwrite (r s : List Int) (a len i : Nat) (h : i < r.length) :
    (overwrite r a len s).getD i 0 =
      if a ≤ i ∧ i < a + len then s.getD i 0 else r.getD i 0 := by
  rw [List.getD_eq_getElem?_getD, getElem?_overwrite, if_pos h]
  rfl

theorem overwrite_overwrite (r s : List Int) (a h1 h2 : Nat) :
    overwrite (overwrite r a h1 s) (a + h1) h2 s = overwrite r a (h1 + h2) s := by
  apply List.ext_getElem?
  intro i
  rw [getElem?_overwrite, getElem?_overwrite, length_overwrite]
  by_cases hi : i < r.length
  · rw [if_pos hi, if_pos hi]
    by_cases hin : a + h1 ≤ i ∧ i < a + h1 + h2
    · rw [if_pos hin, if_pos (by omega)]
    · rw [if_neg hin, getD_overwrite r s a h1 i hi]
      by_cases hin2 : a ≤ i ∧ i < a + h1
      · rw [if_pos hin2, if_pos (by omega)]
      · rw [if_neg hin2, if_neg (by omega)]
  · rw [if_neg hi, if_neg hi]

theorem overwrite_full (r s : List Int) (h : s.length = r.length) :
    overwrite r 0 r.length s = s := by
  apply List.ext_getElem?
  intro i
  rw [getElem?_overwrite]
  by_cases hi : i < r.length
  · rw [if_pos hi, if_pos (by omega), List.getD_eq_getElem?_getD,
      List.getElem?_eq_getElem (show i < s.length by omega)]
    rfl
  · rw [if_neg hi]
    symm
    apply List.getElem?_eq_none
    omega

/-! ### The recursive merge is exactly the range write of the merged sequence -/

theorem merge_eq_overwrite (ms n : Nat) (hms : 1 ≤ ms) (l r : List Int) :
    ∀ j : Nat, ∀ (res : List Int) (start : Nat),
      merge ms n l r res start (2 ^ j) =
        overwrite res start (2 ^ j) (mergePair id l r) := by
  intro j
  induction j with
  | zero =>
    intro res start
    simp only [pow_zero]
    rw [merge, if_neg (by omega)]
    rfl
  | succ j ih =>
    intro res start
    rw [merge]
    by_cases h : 2 * ms ≤ 2 ^ (j + 1) ∧ 0 < 2 ^ (j + 1)
    · rw [if_pos h]
      have h2 : 2 ^ (j + 1) / 2 = 2 ^ j := by
        rw [pow_succ]
        omega
      rw [h2, ih, ih, overwrite_overwrite]
      congr 1
      rw [pow_succ]
      omega
    · rw [if_neg h]
      rfl

theorem merge_eq_overwrite' (ms n : Nat) (hms : 1 ≤ ms) (l r res : List Int)
    (start len j : Nat) (hlen : len = 2 ^ j) :
    merge ms n l r res start len = overwrite res start len (mergePair id l r) := by
  subst hlen
  exact merge_eq_overwrite ms n hms l r j res start

theorem overwrite_full' (r s : List Int) (len : Nat) (h1 : len = r.length)
    (h2 : s.length = r.length) : overwrite r 0 len s = s := by
  subst h1
  exact overwrite_full r s h2

/-! ### Decomposition of a buffer into its four quarters -/

theorem four_slices (l : List Int) (q : Nat) (h : l.length = 4 * q) :
    l.take q ++ ((l.drop q).take q ++ ((l.drop (2 * q)).take q ++ (l.drop (3 * q)).take q)) =
      l := by
  have h3 : (l.drop (3 * q)).take q = l.drop (3 * q) := by
    apply List.take_of_length_le
    rw [List.length_drop]
    omega
  have e3 : (l.drop (2 * q)).drop q = l.drop (3 * q) := by
    rw [List.drop_drop, show 2 * q + q = 3 * q from by ring]
  have e2 : (l.drop q).drop q = l.drop (2 * q) := by
    rw [List.drop_drop, show q + q = 2 * q from by ring]
  calc l.take q ++ ((l.drop q).take q ++ ((l.drop (2 * q)).take q ++ (l.drop (3 * q)).take q))
      = l.take q ++ ((l.drop q).take q ++ ((l.drop (2 * q)).take q ++ (l.drop (2 * q)).drop q)) := by
        rw [h3, e3]
    _ = l.take q ++ ((l.drop q).take q ++ (l.drop q).drop q) := by
        rw [List.take_append_drop, e2]
    _ = l := by rw [List.take_append_drop, List.take_append_drop]

/-! ### Main correctness of `multisort`: sorted output, permutation, scratch length -/

theorem multisort_main (ss ms : Nat) (hss : 1 ≤ ss) (hms : 1 ≤ ms) :
    ∀ k : Nat, ∀ data tmp : List Int, data.length = 2 ^ k → tmp.length = 2 ^ k →
      List.Sorted (· ≤ ·) (multisort ss ms (2 ^ k) data tmp).1 ∧
      List.Perm (multisort ss ms (2 ^ k) data tmp).1 data ∧
      (multisort ss ms (2 ^ k) data tmp).2.length = 2 ^ k := by
  intro k
  induction k using Nat.strong_induction_on with
  | _ k ih =>
    intro data tmp hd ht
    by_cases hrec : 4 * ss ≤ 2 ^ k ∧ 0 < 2 ^ k
    · -- recursive decomposition case
      have h4 : 4 ≤ 2 ^ k := le_trans (by omega) hrec.1
      have hk2 : 2 ≤ k := by
        by_contra hlt
        push_neg at hlt
        have hb : 2 ^ k ≤ 2 ^ 1 := Nat.pow_le_pow_right (by omega) (by omega)
        norm_num at hb
        omega
      obtain ⟨k2, rfl⟩ : ∃ k2, k = k2 + 2 := ⟨k - 2, by omega⟩
      have hn : 2 ^ (k2 + 2) = 4 * 2 ^ k2 := by ring
      have hdiv4 : 2 ^ (k2 + 2) / 4 = 2 ^ k2 := by omega
      have hdiv2 : 2 ^ (k2 + 2) / 2 = 2 * 2 ^ k2 := by omega
      have hdiv34 : 3 * 2 ^ (k2 + 2) / 4 = 3 * 2 ^ k2 := by omega
      rw [multisort, if_pos hrec]
      simp only [hdiv4, hdiv2, hdiv34]
      have hs0 : (data.take (2 ^ k2)).length = 2 ^ k2 := by
        rw [List.length_take]; omega
      have hs1 : ((data.drop (2 ^ k2)).take (2 ^ k2)).length = 2 ^ k2 := by
        rw [List.length_take, List.length_drop]; omega
      have hs2 : ((data.drop (2 * 2 ^ k2)).take (2 ^ k2)).length = 2 ^ k2 := by
        rw [List.length_take, List.length_drop]; omega
      have hs3 : ((data.drop (3 * 2 ^ k2)).take (2 ^ k2)).length = 2 ^ k2 := by
        rw [List.length_take, List.length_drop]; omega
      have ht0 : (tmp.take (2 ^ k2)).length = 2 ^ k2 := by
        rw [List.length_take]; omega
      have ht1 : ((tmp.drop (2 ^ k2)).take (2 ^ k2)).length = 2 ^ k2 := by
        rw [List.length_take, List.length_drop]; omega
      have ht2 : ((tmp.drop (2 * 2 ^ k2)).take (2 ^ k2)).length = 2 ^ k2 := by
        rw [List.length_take, List.length_drop]; omega
      have ht3 : ((tmp.drop (3 * 2 ^ k2)).take (2 ^ k2)).length = 2 ^ k2 := by
        rw [List.length_take, List.length_drop]; omega
      obtain ⟨hP0s, hP0p, hP0t⟩ := ih k2 (by omega) (data.take (2 ^ k2)) (tmp.take (2 ^ k2)) hs0 ht0
      obtain ⟨hP1s, hP1p, hP1t⟩ := ih k2 (by omega) ((data.drop (2 ^ k2)).take (2 ^ k2))
        ((tmp.drop (2 ^ k2)).take (2 ^ k2)) hs1 ht1
      obtain ⟨hP2s, hP2p, hP2t⟩ := ih k2 (by omega) ((data.drop (2 * 2 ^ k2)).take (2 ^ k2))
        ((tmp.drop (2 * 2 ^ k2)).take (2 ^ k2)) hs2 ht2
      obtain ⟨hP3s, hP3p, hP3t⟩ := ih k2 (by omega) ((data.drop (3 * 2 ^ k2)).take (2 ^ k2))
        ((tmp.drop (3 * 2 ^ k2)).take (2 ^ k2)) hs3 ht3
      set P0 := multisort ss ms (2 ^ k2) (data.take (2 ^ k2)) (tmp.take (2 ^ k2)) with hP0def
      set P1 := multisort ss ms (2 ^ k2) ((data.drop (2 ^ k2)).take (2 ^ k2))
        ((tmp.drop (2 ^ k2)).take (2 ^ k2)) with hP1def
      set P2 := multisort ss ms (2 ^ k2) ((data.drop (2 * 2 ^ k2)).take (2 ^ k2))
        ((tmp.drop (2 * 2 ^ k2)).take (2 ^ k2)) with hP2def
      set P3 := multisort ss ms (2 ^ k2) ((data.drop (3 * 2 ^ k2)).take (2 ^ k2))
        ((tmp.drop (3 * 2 ^ k2)).take (2 ^ k2)) with hP3def
      have hl0 : P0.1.length = 2 ^ k2 := by rw [hP0p.length_eq, hs0]
      have hl1 : P1.1.length = 2 ^ k2 := by rw [hP1p.length_eq, hs1]
      have hl2 : P2.1.length = 2 ^ k2 := by rw [hP2p.length_eq, hs2]
      have hl3 : P3.1.length = 2 ^ k2 := by rw [hP3p.length_eq, hs3]
      rw [merge_eq_overwrite' ms (2 ^ k2) hms P0.1 P1.1 (P0.2 ++ P1.2) 0 (2 * 2 ^ k2)
        (k2 + 1) (by ring)]
      rw [merge_eq_overwrite' ms (2 ^ k2) hms P2.1 P3.1 (P2.2 ++ P3.2) 0 (2 * 2 ^ k2)
        (k2 + 1) (by ring)]
      rw [overwrite_full' (P0.2 ++ P1.2) (mergePair id P0.1 P1.1) (2 * 2 ^ k2)
        (by rw [List.length_append, hP0t, hP1t]; ring)
        (by rw [List.length_append, hP0t, hP1t, length_mergePair, hl0, hl1])]
      rw [overwrite_full' (P2.2 ++ P3.2) (mergePair id P2.1 P3.1) (2 * 2 ^ k2)
        (by rw [List.length_append, hP2t, hP3t]; ring)
        (by rw [List.length_append, hP2t, hP3t, length_mergePair, hl2, hl3])]
      rw [merge_eq_overwrite' ms (2 * 2 ^ k2) hms (mergePair id P0.1 P1.1)
        (mergePair id P2.1 P3.1) (P0.1 ++ P1.1 ++ P2.1 ++ P3.1) 0 (2 ^ (k2 + 2))
        (k2 + 2) rfl]
      rw [overwrite_full' (P0.1 ++ P1.1 ++ P2.1 ++ P3.1)
        (mergePair id (mergePair id P0.1 P1.1) (mergePair id P2.1 P3.1)) (2 ^ (k2 + 2))
        (by simp only [List.length_append]; rw [hl0, hl1, hl2, hl3]; ring)
        (by simp only [List.length_append, length_mergePair]; rw [hl0, hl1, hl2, hl3]; ring)]
      refine ⟨?_, ?_, ?_⟩
      · -- sortedness of the final half merge
        have hs01 := sorted_mergePair id P0.1 P1.1 hP0s hP1s
        have hs23 := sorted_mergePair id P2.1 P3.1 hP2s hP3s
        exact sorted_mergePair id _ _ hs01 hs23
      · -- permutation of the original data
        have hsplit := four_slices data (2 ^ k2) (by omega)
        have step1 : List.Perm (mergePair id (mergePair id P0.1 P1.1) (mergePair id P2.1 P3.1))
            (mergePair id P0.1 P1.1 ++ mergePair id P2.1 P3.1) :=
          mergePair_perm id _ _
        have step2 : List.Perm (mergePair id P0.1 P1.1 ++ mergePair id P2.1 P3.1)
            ((P0.1 ++ P1.1) ++ (P2.1 ++ P3.1)) :=
          (mergePair_perm id P0.1 P1.1).append (mergePair_perm id P2.1 P3.1)
        have step3 : List.Perm ((P0.1 ++ P1.1) ++ (P2.1 ++ P3.1)) data := by
          have := ((hP0p.append hP1p).append (hP2p.append hP3p))
          rw [← hsplit]
          simpa [List.append_assoc] using this
        exact (step1.trans step2).trans step3
      · -- scratch buffer length
        rw [List.length_append, length_mergePair, length_mergePair, hl0, hl1, hl2, hl3]
        ring
    · -- base case: sequential sort, tmp untouched
      rw [multisort, if_neg hrec]
      refine ⟨?_, ?_, ?_⟩
      · show List.Sorted (· ≤ ·) (basicsort (2 ^ k) data)
        exact List.sorted_insertionSort _ data
      · show List.Perm (basicsort (2 ^ k) data) data
        exact List.perm_insertionSort _ data
      · exact ht

/-- The sorted output is the unique sorted permutation of the input: `multisort`
on a power-of-two-sized buffer computes exactly the base-case sort of the whole
buffer, whatever the (power-of-two) thresholds. -/
theorem multisort_eq_basicsort (ss ms : Nat) (hss : 1 ≤ ss) (hms : 1 ≤ ms)
    (k : Nat) (data tmp : List Int) (hd : data.length = 2 ^ k) (ht : tmp.length = 2 ^ k) :
    (multisort ss ms (2 ^ k) data tmp).1 = basicsort (2 ^ k) data := by
  obtain ⟨hs, hp, -⟩ := multisort_main ss ms hss hms k data tmp hd ht
  refine List.eq_of_perm_of_sorted ?_ hs ?_
  · exact hp.trans (List.perm_insertionSort _ data).symm
  · exact List.sorted_insertionSort _ data

/-! ### Claim theorems -/

/-- C1: for every `n = 2^k` (a positive power of two), power-of-two thresholds
`MIN_SORT_SIZE = 2^i` and `MIN_MERGE_SIZE = 2^j`, and length-`n` buffers `data`
and `tmp`, after `multisort(n, data, tmp)` the data buffer satisfies
`data[idx] ≤ data[idx+1]` for all `0 ≤ idx < n-1` (with `basicsort` and
`basicmerge` modelled from their contracts). -/
theorem multisort_sortedness (i j k : Nat) (data tmp : List Int)
    (hd : data.length = 2 ^ k) (ht : tmp.length = 2 ^ k) (idx : Nat)
    (hidx : idx + 1 < 2 ^ k) :
    (multisort (2 ^ i) (2 ^ j) (2 ^ k) data tmp).1.getD idx 0 ≤
      (multisort (2 ^ i) (2 ^ j) (2 ^ k) data tmp).1.getD (idx + 1) 0 := by
  obtain ⟨hs, hp, -⟩ := multisort_main (2 ^ i) (2 ^ j) Nat.one_le_two_pow
    Nat.one_le_two_pow k data tmp hd ht
  have hlen : (multisort (2 ^ i) (2 ^ j) (2 ^ k) data tmp).1.length = 2 ^ k := by
    rw [hp.length_eq, hd]
  have hs' : List.Pairwise (· ≤ ·) (multisort (2 ^ i) (2 ^ j) (2 ^ k) data tmp).1 := hs
  rw [List.pairwise_iff_getElem] at hs'
  have hrel := hs' idx (idx + 1) (by omega) (by omega) (by omega)
  rw [List.getD_eq_getElem?_getD, List.getElem?_eq_getElem (by omega), Option.getD_some,
    List.getD_eq_getElem?_getD, List.getElem?_eq_getElem (by omega), Option.getD_some]
  exact hrel

theorem multisort_sortedness_witness :
    (multisort (2 ^ 0) (2 ^ 0) (2 ^ 1) [3, 1] [0, 0]).1.getD 0 0 ≤
      (multisort (2 ^ 0) (2 ^ 0) (2 ^ 1) [3, 1] [0, 0]).1.getD 1 0 :=
  multisort_sortedness 0 0 1 [3, 1] [0, 0] (by decide) (by decide) 0 (by decide)

/-- C2: under the same valid-configuration hypotheses, the multiset of values
in the data buffer after `multisort` equals the multiset before the call: no
value is created, dropped, or duplicated. -/
theorem multisort_permutation (i j k : Nat) (data tmp : List Int)
    (hd : data.length = 2 ^ k) (ht : tmp.length = 2 ^ k) :
    ((multisort (2 ^ i) (2 ^ j) (2 ^ k) data tmp).1 : Multiset Int) =
      (data : Multiset Int) := by
  obtain ⟨-, hp, -⟩ := multisort_main (2 ^ i) (2 ^ j) Nat.one_le_two_pow
    Nat.one_le_two_pow k data tmp hd ht
  exact Multiset.coe_eq_coe.mpr hp

theorem multisort_permutation_witness :
    ((multisort (2 ^ 0) (2 ^ 0) (2 ^ 1) [7, 7] [0, 0]).1 : Multiset Int) =
      (([7, 7] : List Int) : Multiset Int) :=
  multisort_permutation 0 0 1 [7, 7] [0, 0] (by decide) (by decide)

/-- C5: whenever `n < 4 * MIN_SORT_SIZE`, `multisort(n, data, tmp)` sorts the
data buffer via the sequential base-case sort and leaves the `tmp` buffer
completely unchanged (no read or write of `tmp` in this terminal case). -/
theorem multisort_base_case (ss ms n : Nat) (data tmp : List Int) (h : n < 4 * ss) :
    multisort ss ms n data tmp = (basicsort n data, tmp) := by
  rw [multisort, if_neg (by omega)]

theorem multisort_base_case_witness :
    multisort 2 1 7 [3, 1, 2] [5, 6] = (basicsort 7 [3, 1, 2], [5, 6]) :=
  multisort_base_case 2 1 7 [3, 1, 2] [5, 6] (by decide)

/-- C7: on a data buffer already sorted in non-decreasing order, `multisort`
leaves the contents of the data buffer unchanged (idempotence on the primary
buffer), under the valid-configuration hypotheses. -/
theorem multisort_idempotent (i j k : Nat) (data tmp : List Int)
    (hd : data.length = 2 ^ k) (ht : tmp.length = 2 ^ k)
    (hsorted : List.Sorted (· ≤ ·) data) :
    (multisort (2 ^ i) (2 ^ j) (2 ^ k) data tmp).1 = data := by
  rw [multisort_eq_basicsort (2 ^ i) (2 ^ j) Nat.one_le_two_pow Nat.one_le_two_pow
    k data tmp hd ht]
  exact hsorted.insertionSort_eq

theorem multisort_idempotent_witness :
    (multisort (2 ^ 0) (2 ^ 0) (2 ^ 1) [1, 2] [9, 9]).1 = [1, 2] :=
  multisort_idempotent 0 0 1 [1, 2] [9, 9] (by decide) (by decide) (by decide)

/-- C9: the concrete scenario `N = 8`, `data = [5,3,8,1,9,2,7,4]`,
`MIN_SORT_SIZE = 2`, `MIN_MERGE_SIZE = 2`: `multisort` leaves
`data = [1,2,3,4,5,7,8,9]`, the ascending sort of the literal input values. -/
theorem multisort_concrete_scenario :
    (multisort 2 2 8 [5, 3, 8, 1, 9, 2, 7, 4] [0, 0, 0, 0, 0, 0, 0, 0]).1 =
      [1, 2, 3, 4, 5, 7, 8, 9] := by
  have h := multisort_eq_basicsort 2 2 (by omega) (by omega) 3
    [5, 3, 8, 1, 9, 2, 7, 4] [0, 0, 0, 0, 0, 0, 0, 0] (by decide) (by decide)
  norm_num at h
  rw [h]
  decide

/-- C3: for sorted equal-length inputs and a power-of-two destination
sub-range `[start, start + 2^jlen)` of the combined `2n`-element output space,
`merge` writes into `result[start .. start+length)` exactly the corresponding
portion of the merged sorted sequence (and touches nothing else), the merged
sequence is sorted, and the merge is stable: tagging every element with its
source, for each value `v` the block of `v`s consists of the occurrences from
`left` (in order) followed by the occurrences from `right` (in order). -/
theorem merge_correct (i jlen n : Nat) (left right result : List Int)
    (hln : left.length = n) (hrn : right.length = n)
    (hsl : List.Sorted (· ≤ ·) left) (hsr : List.Sorted (· ≤ ·) right)
    (hres : result.length = 2 * n) (start : Nat) (hfit : start + 2 ^ jlen ≤ 2 * n) :
    (∀ idx, start ≤ idx → idx < start + 2 ^ jlen →
        (merge (2 ^ i) n left right result start (2 ^ jlen)).getD idx 0 =
          (mergePair id left right).getD idx 0) ∧
    (∀ idx, idx < start ∨ start + 2 ^ jlen ≤ idx →
        (merge (2 ^ i) n left right result start (2 ^ jlen)).getD idx 0 =
          result.getD idx 0) ∧
    List.Sorted (· ≤ ·) (mergePair id left right) ∧
    ((mergePair Prod.fst (left.map fun x => (x, (0 : Nat)))
        (right.map fun x => (x, (1 : Nat)))).map Prod.fst = mergePair id left right) ∧
    (∀ v : Int,
      (mergePair Prod.fst (left.map fun x => (x, (0 : Nat)))
          (right.map fun x => (x, (1 : Nat)))).filter (fun p => decide (p.1 = v)) =
        (left.filter fun x => decide (x = v)).map (fun x => (x, (0 : Nat))) ++
          (right.filter fun x => decide (x = v)).map (fun x => (x, (1 : Nat)))) := by
  refine ⟨?_, ?_, ?_, ?_, ?_⟩
  · intro idx h1 h2
    rw [merge_eq_overwrite' (2 ^ i) n Nat.one_le_two_pow left right result start
      (2 ^ jlen) jlen rfl]
    rw [getD_overwrite _ _ _ _ _ (by omega), if_pos ⟨h1, h2⟩]
  · intro idx hout
    rw [merge_eq_overwrite' (2 ^ i) n Nat.one_le_two_pow left right result start
      (2 ^ jlen) jlen rfl]
    by_cases hin : idx < result.length
    · rw [getD_overwrite _ _ _ _ _ hin, if_neg (by omega)]
    · rw [List.getD_eq_getElem?_getD, List.getD_eq_getElem?_getD,
        List.getElem?_eq_none (show result.length ≤ idx by omega),
        List.getElem?_eq_none (by rw [length_overwrite]; omega)]
  · exact sorted_mergePair id left right hsl hsr
  · exact mergePair_map_fst 0 1 left right
  · intro v
    have hstab := mergePair_filter_stable Prod.fst v (left.map fun x => (x, (0 : Nat)))
      (right.map fun x => (x, (1 : Nat))) (List.pairwise_map.mpr hsl)
    rw [List.filter_map, List.filter_map] at hstab
    exact hstab

theorem merge_correct_witness :
    (merge (2 ^ 0) 2 [1, 3] [1, 4] [9, 9, 9, 9] 0 (2 ^ 2)).getD 0 0 =
      (mergePair id [1, 3] [1, 4]).getD 0 0 :=
  (merge_correct 0 2 2 [1, 3] [1, 4] [9, 9, 9, 9] (by decide) (by decide)
    (by decide) (by decide) (by decide) 0 (by decide)).1 0 (by decide) (by decide)

/-- C4: in a recursive invocation (`n = 2^k ≥ 4 * MIN_SORT_SIZE`) the buffers
alternate roles: the scratch buffer ends as the two quarter merges of the four
quarters of `data`, each quarter sorted within `data` (equal to its sequential
sort), the data buffer ends as the merge of the two halves of the scratch
buffer, and the final sorted output lies in the primary buffer `data`. -/
theorem multisort_buffer_roles (i j k : Nat) (data tmp : List Int)
    (hd : data.length = 2 ^ k) (ht : tmp.length = 2 ^ k)
    (hrec : 4 * 2 ^ i ≤ 2 ^ k) :
    (multisort (2 ^ i) (2 ^ j) (2 ^ k) data tmp).2 =
        mergePair id (basicsort (2 ^ k / 4) (data.take (2 ^ k / 4)))
          (basicsort (2 ^ k / 4) ((data.drop (2 ^ k / 4)).take (2 ^ k / 4))) ++
        mergePair id (basicsort (2 ^ k / 4) ((data.drop (2 ^ k / 2)).take (2 ^ k / 4)))
          (basicsort (2 ^ k / 4) ((data.drop (3 * 2 ^ k / 4)).take (2 ^ k / 4))) ∧
    (multisort (2 ^ i) (2 ^ j) (2 ^ k) data tmp).1 =
        mergePair id ((multisort (2 ^ i) (2 ^ j) (2 ^ k) data tmp).2.take (2 ^ k / 2))
          ((multisort (2 ^ i) (2 ^ j) (2 ^ k) data tmp).2.drop (2 ^ k / 2)) ∧
    List.Sorted (· ≤ ·) (multisort (2 ^ i) (2 ^ j) (2 ^ k) data tmp).1 := by
  have hss : (1 : Nat) ≤ 2 ^ i := Nat.one_le_two_pow
  have hms : (1 : Nat) ≤ 2 ^ j := Nat.one_le_two_pow
  have h4 : 4 ≤ 2 ^ k := le_trans (by omega) hrec
  have hk2 : 2 ≤ k := by
    by_contra hlt
    push_neg at hlt
    have hb : 2 ^ k ≤ 2 ^ 1 := Nat.pow_le_pow_right (by omega) (by omega)
    norm_num at hb
    omega
  obtain ⟨k2, rfl⟩ : ∃ k2, k = k2 + 2 := ⟨k - 2, by omega⟩
  have hn : 2 ^ (k2 + 2) = 4 * 2 ^ k2 := by ring
  have hdiv4 : 2 ^ (k2 + 2) / 4 = 2 ^ k2 := by omega
  have hdiv2 : 2 ^ (k2 + 2) / 2 = 2 * 2 ^ k2 := by omega
  have hdiv34 : 3 * 2 ^ (k2 + 2) / 4 = 3 * 2 ^ k2 := by omega
  have hs0 : (data.take (2 ^ k2)).length = 2 ^ k2 := by
    rw [List.length_take]; omega
  have hs1 : ((data.drop (2 ^ k2)).take (2 ^ k2)).length = 2 ^ k2 := by
    rw [List.length_take, List.length_drop]; omega
  have hs2 : ((data.drop (2 * 2 ^ k2)).take (2 ^ k2)).length = 2 ^ k2 := by
    rw [List.length_take, List.length_drop]; omega
  have hs3 : ((data.drop (3 * 2 ^ k2)).take (2 ^ k2)).length = 2 ^ k2 := by
    rw [List.length_take, List.length_drop]; omega
  have ht0 : (tmp.take (2 ^ k2)).length = 2 ^ k2 := by
    rw [List.length_take]; omega
  have ht1 : ((tmp.drop (2 ^ k2)).take (2 ^ k2)).length = 2 ^ k2 := by
    rw [List.length_take, List.length_drop]; omega
  have ht2 : ((tmp.drop (2 * 2 ^ k2)).take (2 ^ k2)).length = 2 ^ k2 := by
    rw [List.length_take, List.length_drop]; omega
  have ht3 : ((tmp.drop (3 * 2 ^ k2)).take (2 ^ k2)).length = 2 ^ k2 := by
    rw [List.length_take, List.length_drop]; omega
  obtain ⟨hP0s, hP0p, hP0t⟩ := multisort_main (2 ^ i) (2 ^ j) hss hms k2
    (data.take (2 ^ k2)) (tmp.take (2 ^ k2)) hs0 ht0
  obtain ⟨hP1s, hP1p, hP1t⟩ := multisort_main (2 ^ i) (2 ^ j) hss hms k2
    ((data.drop (2 ^ k2)).take (2 ^ k2)) ((tmp.drop (2 ^ k2)).take (2 ^ k2)) hs1 ht1
  obtain ⟨hP2s, hP2p, hP2t⟩ := multisort_main (2 ^ i) (2 ^ j) hss hms k2
    ((data.drop (2 * 2 ^ k2)).take (2 ^ k2)) ((tmp.drop (2 * 2 ^ k2)).take (2 ^ k2)) hs2 ht2
  obtain ⟨hP3s, hP3p, hP3t⟩ := multisort_main (2 ^ i) (2 ^ j) hss hms k2
    ((data.drop (3 * 2 ^ k2)).take (2 ^ k2)) ((tmp.drop (3 * 2 ^ k2)).take (2 ^ k2)) hs3 ht3
  set P0 := multisort (2 ^ i) (2 ^ j) (2 ^ k2) (data.take (2 ^ k2)) (tmp.take (2 ^ k2))
    with hP0def
  set P1 := multisort (2 ^ i) (2 ^ j) (2 ^ k2) ((data.drop (2 ^ k2)).take (2 ^ k2))
    ((tmp.drop (2 ^ k2)).take (2 ^ k2)) with hP1def
  set P2 := multisort (2 ^ i) (2 ^ j) (2 ^ k2) ((data.drop (2 * 2 ^ k2)).take (2 ^ k2))
    ((tmp.drop (2 * 2 ^ k2)).take (2 ^ k2)) with hP2def
  set P3 := multisort (2 ^ i) (2 ^ j) (2 ^ k2) ((data.drop (3 * 2 ^ k2)).take (2 ^ k2))
    ((tmp.drop (3 * 2 ^ k2)).take (2 ^ k2)) with hP3def
  have hl0 : P0.1.length = 2 ^ k2 := by rw [hP0p.length_eq, hs0]
  have hl1 : P1.1.length = 2 ^ k2 := by rw [hP1p.length_eq, hs1]
  have hl2 : P2.1.length = 2 ^ k2 := by rw [hP2p.length_eq, hs2]
  have hl3 : P3.1.length = 2 ^ k2 := by rw [hP3p.length_eq, hs3]
  have hEq : multisort (2 ^ i) (2 ^ j) (2 ^ (k2 + 2)) data tmp =
      (mergePair id (mergePair id P0.1 P1.1) (mergePair id P2.1 P3.1),
        mergePair id P0.1 P1.1 ++ mergePair id P2.1 P3.1) := by
    rw [multisort, if_pos ⟨hrec, by positivity⟩]
    simp only [hdiv4, hdiv2, hdiv34]
    rw [merge_eq_overwrite' (2 ^ j) (2 ^ k2) hms P0.1 P1.1 (P0.2 ++ P1.2) 0 (2 * 2 ^ k2)
      (k2 + 1) (by ring)]
    rw [merge_eq_overwrite' (2 ^ j) (2 ^ k2) hms P2.1 P3.1 (P2.2 ++ P3.2) 0 (2 * 2 ^ k2)
      (k2 + 1) (by ring)]
    rw [overwrite_full' (P0.2 ++ P1.2) (mergePair id P0.1 P1.1) (2 * 2 ^ k2)
      (by rw [List.length_append, hP0t, hP1t]; ring)
      (by rw [List.length_append, hP0t, hP1t, length_mergePair, hl0, hl1])]
    rw [overwrite_full' (P2.2 ++ P3.2) (mergePair id P2.1 P3.1) (2 * 2 ^ k2)
      (by rw [List.length_append, hP2t, hP3t]; ring)
      (by rw [List.length_append, hP2t, hP3t, length_mergePair, hl2, hl3])]
    rw [merge_eq_overwrite' (2 ^ j) (2 * 2 ^ k2) hms (mergePair id P0.1 P1.1)
      (mergePair id P2.1 P3.1) (P0.1 ++ P1.1 ++ P2.1 ++ P3.1) 0 (2 ^ (k2 + 2))
      (k2 + 2) rfl]
    rw [overwrite_full' (P0.1 ++ P1.1 ++ P2.1 ++ P3.1)
      (mergePair id (mergePair id P0.1 P1.1) (mergePair id P2.1 P3.1)) (2 ^ (k2 + 2))
      (by simp only [List.length_append]; rw [hl0, hl1, hl2, hl3]; ring)
      (by simp only [List.length_append, length_mergePair]; rw [hl0, hl1, hl2, hl3]; ring)]
  have e0 : P0.1 = basicsort (2 ^ k2) (data.take (2 ^ k2)) :=
    multisort_eq_basicsort (2 ^ i) (2 ^ j) hss hms k2 _ _ hs0 ht0
  have e1 : P1.1 = basicsort (2 ^ k2) ((data.drop (2 ^ k2)).take (2 ^ k2)) :=
    multisort_eq_basicsort (2 ^ i) (2 ^ j) hss hms k2 _ _ hs1 ht1
  have e2 : P2.1 = basicsort (2 ^ k2) ((data.drop (2 * 2 ^ k2)).take (2 ^ k2)) :=
    multisort_eq_basicsort (2 ^ i) (2 ^ j) hss hms k2 _ _ hs2 ht2
  have e3 : P3.1 = basicsort (2 ^ k2) ((data.drop (3 * 2 ^ k2)).take (2 ^ k2)) :=
    multisort_eq_basicsort (2 ^ i) (2 ^ j) hss hms k2 _ _ hs3 ht3
  simp only [hdiv4, hdiv2, hdiv34]
  rw [hEq]
  refine ⟨?_, ?_, ?_⟩
  · show mergePair id P0.1 P1.1 ++ mergePair id P2.1 P3.1 = _
    rw [e0, e1, e2, e3]
  · show mergePair id (mergePair id P0.1 P1.1) (mergePair id P2.1 P3.1) = _
    rw [List.take_left' (by rw [length_mergePair, hl0, hl1]; ring),
      List.drop_left' (by rw [length_mergePair, hl0, hl1]; ring)]
  · obtain ⟨hsAll, -, -⟩ := multisort_main (2 ^ i) (2 ^ j) hss hms (k2 + 2) data tmp hd ht
    rw [hEq] at hsAll
    exact hsAll

theorem multisort_buffer_roles_witness :
    List.Sorted (· ≤ ·) (multisort (2 ^ 0) (2 ^ 0) (2 ^ 2) [4, 3, 2, 1] [0, 0, 0, 0]).1 :=
  (multisort_buffer_roles 0 0 2 [4, 3, 2, 1] [0, 0, 0, 0]
    (by decide) (by decide) (by decide)).2.2

/-- C6: for a fixed input array of power-of-two size `N = 2^k`, any two valid
configurations (power-of-two `MIN_SORT_SIZE` and `MIN_MERGE_SIZE`, arbitrary
`CUTOFF` values) produce the identical final content of the data buffer; the
scratch buffer's initial contents are also irrelevant. -/
theorem threshold_invariance (g g' : Globals) (i j i' j' k : Nat)
    (hgs : g.MIN_SORT_SIZE = 2 ^ i) (hgm : g.MIN_MERGE_SIZE = 2 ^ j)
    (hgN : g.N = 2 ^ k)
    (hgs' : g'.MIN_SORT_SIZE = 2 ^ i') (hgm' : g'.MIN_MERGE_SIZE = 2 ^ j')
    (hgN' : g'.N = 2 ^ k)
    (data tmp tmp' : List Int) (hd : data.length = 2 ^ k)
    (ht : tmp.length = 2 ^ k) (ht' : tmp'.length = 2 ^ k) :
    (multisortRun g data tmp).1 = (multisortRun g' data tmp').1 := by
  have e : ∀ m : Nat, ((2 : Int) ^ m).toNat = 2 ^ m := by
    intro m
    rw [show ((2 : Int) ^ m) = ((2 ^ m : Nat) : Int) from by push_cast; ring]
    exact Int.toNat_ofNat _
  unfold multisortRun
  rw [hgs, hgm, hgN, hgs', hgm', hgN']
  simp only [e]
  rw [multisort_eq_basicsort (2 ^ i) (2 ^ j) Nat.one_le_two_pow Nat.one_le_two_pow
      k data tmp hd ht,
    multisort_eq_basicsort (2 ^ i') (2 ^ j') Nat.one_le_two_pow Nat.one_le_two_pow
      k data tmp' hd ht']

theorem threshold_invariance_witness :
    (multisortRun ⟨4, 1, 1, 16⟩ [4, 3, 2, 1] [0, 0, 0, 0]).1 =
      (multisortRun ⟨4, 2, 2, 3⟩ [4, 3, 2, 1] [1, 1, 1, 1]).1 :=
  threshold_invariance ⟨4, 1, 1, 16⟩ ⟨4, 2, 2, 3⟩ 0 0 1 1 2
    (by decide) (by decide) (by decide) (by decide) (by decide) (by decide)
    [4, 3, 2, 1] [0, 0, 0, 0] [1, 1, 1, 1] (by decide) (by decide) (by decide)

/-- C8 counterexample: the driver accepts `-s 3` — a `MIN_SORT_SIZE` that is
not a power of two — and proceeds to invoke the engine; no power-of-two
validation happens in `main`. -/
theorem parse_accepts_nonpow2_min_sort_size :
    parseArgs ["-s", "3"] defaultGlobals =
      some { N := 32768 * 1024, MIN_SORT_SIZE := 3, MIN_MERGE_SIZE := 1024, CUTOFF := 16 } ∧
    isPow2Nat (Int.toNat 3) = false := by
  constructor
  · rfl
  · simp [isPow2Nat]

/-- C8 (amended): the driver rejects only unrecognized command-line options
(usage message and non-zero exit before `multisort` is invoked): any option
other than `-n`, `-s`, `-m`, `-c` is rejected, whatever follows it, while the
power-of-two preconditions on `N` (`-n`), `MIN_SORT_SIZE` (`-s`) and
`MIN_MERGE_SIZE` (`-m`) are never validated — every value string, power of two
or not, is stored and reaches the engine invocation unchecked. -/
theorem parse_validation_behavior (g : Globals) (v a : String) (rest : List String)
    (ha : a ≠ "-n" ∧ a ≠ "-s" ∧ a ≠ "-m" ∧ a ≠ "-c") :
    parseArgs ["-n", v] g = some { g with N := atol v * 1024 } ∧
    parseArgs ["-s", v] g = some { g with MIN_SORT_SIZE := atol v } ∧
    parseArgs ["-m", v] g = some { g with MIN_MERGE_SIZE := atol v } ∧
    parseArgs (a :: rest) g = none := by
  obtain ⟨h1, h2, h3, h4⟩ := ha
  refine ⟨rfl, rfl, rfl, ?_⟩
  rw [parseArgs.eq_def]
  dsimp only
  rw [if_neg h1, if_neg h2, if_neg h3, if_neg h4]

theorem parse_validation_behavior_witness :
    ((parseArgs ["-n", "3"] defaultGlobals = some { defaultGlobals with N := atol "3" * 1024 } ∧
      parseArgs ["-s", "3"] defaultGlobals =
        some { defaultGlobals with MIN_SORT_SIZE := atol "3" } ∧
      parseArgs ["-m", "3"] defaultGlobals =
        some { defaultGlobals with MIN_MERGE_SIZE := atol "3" } ∧
      parseArgs ["-x", "3"] defaultGlobals = none)) :=
  parse_validation_behavior defaultGlobals "3" "-x" ["3"] (by decide)

/-- C10: in the multisort-tree variant, `-c` is parsed into the `CUTOFF`
global, but `CUTOFF` is never consulted by the engine: two runs whose
configurations agree on `N`, `MIN_SORT_SIZE`, `MIN_MERGE_SIZE` and differ in
`CUTOFF` arbitrarily produce identical final buffers. -/
theorem cutoff_noninterference (g g' : Globals) (data tmp : List Int) (v : String)
    (hN : g.N = g'.N) (hs : g.MIN_SORT_SIZE = g'.MIN_SORT_SIZE)
    (hm : g.MIN_MERGE_SIZE = g'.MIN_MERGE_SIZE) :
    parseArgs ["-c", v] g = some { g with CUTOFF := atol v } ∧
    multisortRun g data tmp = multisortRun g' data tmp := by
  constructor
  · rfl
  · unfold multisortRun
    rw [hN, hs, hm]

theorem cutoff_noninterference_witness :
    parseArgs ["-c", "7"] defaultGlobals =
      some { defaultGlobals with CUTOFF := atol "7" } ∧
    multisortRun defaultGlobals [5, 1] [0, 0] =
      multisortRun ⟨32768 * 1024, 1024, 1024, 1⟩ [5, 1] [0, 0] :=
  cutoff_noninterference defaultGlobals ⟨32768 * 1024, 1024, 1024, 1⟩ [5, 1] [0, 0] "7"
    (by decide) (by decide) (by decide)

end MultisortTree
